import Mathlib

/-!
# uxndump: a shallow embedding of `uxndump.c`

The disassembler reads a Uxn program image and prints one annotated line per
instruction.  This file embeds the decoding and formatting functions of
`uxndump.c` as Lean functions and proves properties of them.

Modelling conventions

* A `uint8_t` is a `Byte`, that is `Fin 256`; bit operations are done on its value.
* A `char` buffer that a `put_xxxx` function fills is the list of characters it
  writes before the terminating NUL; the `int` such a function returns (the
  number of characters written) is the length of that list.
* A `uint8_t *` argument is the list of the bytes that can be read through it;
  reading past the end of that list is undefined in C and is `none` here, as is
  `strcpy` from a NULL table entry.
* A C `int` is an `Int` between `INT_MIN` and `INT_MAX`, a `size_t` a `Nat` below
  `2 ^ 64`; the conversions between them (`to_int`, `to_size_t`) are those of the
  usual platforms with a 32-bit `int` and a 64-bit `size_t`.  The parameter
  `uint16_t address` is reduced modulo `2 ^ 16`.
* `sprintf`, `isascii` and `iscntrl` belong to the C library; they are modelled
  after the C standard (`"C"` locale).
-/

namespace Uxndump

set_option maxRecDepth 100000

/-- A value of type `uint8_t`. -/
abbrev Byte := Fin 256

/-- Table `opecodeX` (lines 13-18); the NULL entry is `none`. -/
def opecodeX : List (Option String) := [
  none,       some "INC", some "POP", some "NIP", some "SWP", some "ROT", some "DUP", some "OVR",
  some "EQU", some "NEQ", some "GTH", some "LTH", some "JMP", some "JCN", some "JSR", some "STH",
  some "LDZ", some "STZ", some "LDR", some "STR", some "LDA", some "STA", some "DEI", some "DEO",
  some "ADD", some "SUB", some "MUL", some "DIV", some "AND", some "ORA", some "EOR", some "SFT"]

/-- Table `opecode0` (lines 20-22). -/
def opecode0 : List (Option String) := [
  some "BRK", some "20 ", some "40 ", some "60 ", some "LIT", some "LIT", some "LIT", some "LIT"]

/-- Reading `table[idx]` as a string: it fails outside the table and on a NULL entry. -/
def table_entry (table : List (Option String)) (idx : Nat) : Option String :=
  (table.get? idx).bind id

def HEXDUMP_WIDTH : Int := 3
def INSTRUCTION_STRING_LEN : Int := 3
def MODIFIER_STRING_LEN : Int := 3
def OFFSET : Nat := 0x100

/-- The conversion `%0<width>x` of `sprintf`: lower-case hexadecimal digits of `value`,
zero-padded on the left to at least `width` characters. -/
def fmt_0x (width : Nat) (value : Nat) : List Char :=
  let digits := Nat.toDigits 16 value
  List.replicate (width - digits.length) '0' ++ digits

/-- Function `put_space` (lines 29-40): `len` spaces, none when `len` is not positive. -/
def put_space (len : Int) : List Char :=
  List.replicate len.toNat ' '

/-- Function `put_hex8` (lines 43-46): `sprintf(out, "%02x ", value)`. -/
def put_hex8 (value : Byte) : List Char :=
  fmt_0x 2 value.val ++ [' ']

/-- Function `put_hex16` (lines 48-51): `sprintf(out, "%04x ", value)`; the argument is
converted to `uint16_t`. -/
def put_hex16 (value : Nat) : List Char :=
  fmt_0x 4 (value % 65536) ++ [' ']

/-- The loop of `put_hexdump` (lines 58-62), `n` iterations left. -/
def put_hexdump_loop : List Byte → Nat → Option (List Char)
  | _, 0 => some []
  | [], _ + 1 => none
  | b :: bin, n + 1 => (put_hexdump_loop bin n).map fun rest => put_hex8 b ++ rest

/-- Function `put_hexdump` (lines 53-65). -/
def put_hexdump (bin : List Byte) (len : Int) : Option (List Char) :=
  put_hexdump_loop bin len.toNat

/-- Library function `isascii`. -/
def isascii (c : Nat) : Bool := c ≤ 0x7f

/-- Library function `iscntrl` in the `"C"` locale. -/
def iscntrl (c : Nat) : Bool := c < 0x20 || c == 0x7f

/-- The character `put_asciidump` writes for one byte (lines 73-75). -/
def ascii_char (b : Byte) : Char :=
  if isascii b.val && !iscntrl b.val && (b.val != 0x28) && (b.val != 0x29) then
    Char.ofNat b.val
  else '.'

/-- The loop of `put_asciidump` (lines 71-77), `n` iterations left. -/
def put_asciidump_loop : List Byte → Nat → Option (List Char)
  | _, 0 => some []
  | [], _ + 1 => none
  | b :: bin, n + 1 => (put_asciidump_loop bin n).map fun rest => ascii_char b :: rest

/-- Function `put_asciidump` (lines 67-82). -/
def put_asciidump (bin : List Byte) (len : Int) : Option (List Char) :=
  put_asciidump_loop bin len.toNat

/-- Function `get_immediate_size` (lines 84-93). -/
def get_immediate_size (opecode : Byte) : Int :=
  if opecode.val &&& 0x9f = 0x80 then
    (if opecode.val &&& 0x20 ≠ 0 then 2 else 1)
  else
    0

/-- The table entry `m` that `put_instruction` selects (lines 102-106). -/
def select_mnemonic (opecode : Byte) : Option String :=
  let op := opecode.val &&& 0x1f
  if op ≠ 0 then table_entry opecodeX op else table_entry opecode0 (opecode.val >>> 5)

/-- The value of `opecode` when `put_instruction` reaches line 117: unchanged when the
low five bits are not zero, else with bit 7 cleared (LIT) or bits 5-7 cleared. -/
def modifier_bits (opecode : Byte) : Nat :=
  let op := opecode.val &&& 0x1f
  if op ≠ 0 then opecode.val
  else if opecode.val &&& 0x80 ≠ 0 then opecode.val &&& 0x7f
  else opecode.val &&& 0x1f

/-- The modifier characters `put_instruction` appends (lines 120-122). -/
def put_modifiers (opecode : Nat) : List Char :=
  (if opecode &&& 0x20 ≠ 0 then ['2'] else []) ++
  (if opecode &&& 0x80 ≠ 0 then ['k'] else []) ++
  (if opecode &&& 0x40 ≠ 0 then ['r'] else [])

/-- Function `put_instruction` (lines 95-126). -/
def put_instruction (opecode : Byte) : Option (List Char) :=
  (select_mnemonic opecode).map fun m => m.toList ++ put_modifiers (modifier_bits opecode)

/-- Function `put_disassemble` (lines 128-153). -/
def put_disassemble (code : List Byte) (immediate_size : Int) : Option (List Char) := do
  let c0 ← code.get? 0
  let ins ← put_instruction c0
  if immediate_size ≠ 0 then
    let pad := put_space (INSTRUCTION_STRING_LEN + MODIFIER_STRING_LEN + 1 - ins.length)
    if immediate_size = 1 then do
      let c1 ← code.get? 1
      some (ins ++ pad ++ put_hex8 c1)
    else if immediate_size = 2 then do
      let c1 ← code.get? 1
      let c2 ← code.get? 2
      some (ins ++ pad ++ put_hex16 ((c1.val <<< 8) ||| c2.val))
    else
      some (ins ++ pad)
  else
    some ins

/-- The loop of `put_dump` (lines 159-160), from index `i`, `n` iterations left. -/
def put_dump_loop (code : List Byte) : Nat → Nat → Option (List Char)
  | _, 0 => some []
  | i, n + 1 => do
    let b ← code.get? i
    let rest ← put_dump_loop code (i + 1) n
    some (put_hex8 b ++ rest)

/-- Function `put_dump` (lines 155-161). -/
def put_dump (code : List Byte) (len : Int) : Option (List Char) :=
  put_dump_loop code 0 len.toNat

/-- The part of a line that `build_line` writes before the body (lines 178-188). -/
def put_comment (address : Nat) (code : List Byte) (len : Int) : Option (List Char) := do
  let hex ← put_hexdump code len
  let asc ← put_asciidump code len
  some ("( ".toList ++ put_hex16 (address % 65536 + OFFSET) ++
    hex ++ put_space (HEXDUMP_WIDTH * 3 - hex.length) ++
    asc ++ put_space (HEXDUMP_WIDTH - asc.length) ++ " )\t".toList)

/-- Function `build_line` (lines 163-198): the line written and the count returned. -/
def build_line (address : Nat) (code : List Byte) (remain : Int) :
    Option (List Char × Int) := do
  let c0 ← code.get? 0
  let want := get_immediate_size c0 + 1
  let len := if remain < want then remain else want
  let dump := if remain < want then true else false
  let head ← put_comment address code len
  let body ← if dump then put_dump code len else put_disassemble code (len - 1)
  some (head ++ body, len)

/-- One iteration of the loop of `disassemble_all`: the cursor `i` at the call of
`build_line`, the count it returned and the line that was printed. -/
structure Step where
  cursor : Int
  consumed : Int
  line : List Char
deriving DecidableEq

/-- The least value of a C `int` (32 bits). -/
def INT_MIN : Int := -2147483648

/-- The greatest value of a C `int` (32 bits). -/
def INT_MAX : Int := 2147483647

/-- Conversion of an integer to `int`: the value modulo `2 ^ 32`, taken between `INT_MIN`
and `INT_MAX`. -/
def to_int (n : Int) : Int :=
  (n + 2147483648) % 4294967296 - 2147483648

/-- Conversion of an integer to `size_t`: the value modulo `2 ^ 64`. -/
def to_size_t (n : Int) : Nat :=
  (n % 18446744073709551616).toNat

/-- The loop of `disassemble_all` (lines 207-210) started with cursor `i`, an `int`; the
`size_t` variable `filesize` holds the length of the image.  The test `i < filesize`
converts `i` to `size_t`, the argument `filesize - i` is computed in `size_t` and converted
to the `int` parameter `remain`.  Taking `&buf[i]` for a negative `i` and an overflow of
`i += ...` are undefined in C and give `none`.  At most `fuel` iterations are run, and
`none` is also the answer when they do not suffice. -/
def disassemble_loop (image : List Byte) : Nat → Int → Option (List Step)
  | 0, i => if to_size_t i < to_size_t image.length then none else some []
  | fuel + 1, i =>
    if to_size_t i < to_size_t image.length then
      if i < 0 then none
      else do
        let (line, n) ← build_line i.toNat (image.drop i.toNat)
          (to_int ((to_size_t image.length : Int) - (to_size_t i : Int)))
        if i + n < INT_MIN ∨ INT_MAX < i + n then none
        else do
          let rest ← disassemble_loop image fuel (i + n)
          some (⟨i, n, line⟩ :: rest)
    else
      some []

/-- Function `disassemble_all` (lines 200-211): the lines printed, the header first. -/
def disassemble_all (image : List Byte) (fuel : Nat) : Option (List (List Char)) :=
  (disassemble_loop image fuel 0).map fun steps =>
    ("|".toList ++ fmt_0x 4 OFFSET) :: steps.map Step.line

/-- An image given by the values of its bytes. -/
def image_of (bytes : List Nat) : List Byte :=
  bytes.map fun b => Fin.ofNat b

/-- The list of base mnemonics as the specification gives it, the first for code 1. -/
def base_mnemonics : List String := [
  "INC", "POP", "NIP", "SWP", "ROT", "DUP", "OVR", "EQU", "NEQ", "GTH", "LTH", "JMP", "JCN",
  "JSR", "STH", "LDZ", "STZ", "LDR", "STR", "LDA", "STA", "DEI", "DEO", "ADD", "SUB", "MUL",
  "DIV", "AND", "ORA", "EOR", "SFT"]

/-- The two lower-case hexadecimal digits of a byte. -/
def hex_pair (b : Byte) : List Char :=
  [Nat.digitChar (b.val / 16), Nat.digitChar (b.val % 16)]

/-- A raw-mode line: the comment part followed by the hex dump `put_dump` of `len` bytes. -/
def raw_line (address : Nat) (code : List Byte) (len : Int) : Option (List Char) := do
  let head ← put_comment address code len
  let body ← put_dump code len
  some (head ++ body)

/-- A decode-mode line: the comment part followed by the text `put_disassemble` writes for
an instruction of `len` bytes. -/
def decode_line (address : Nat) (code : List Byte) (len : Int) : Option (List Char) := do
  let head ← put_comment address code len
  let body ← put_disassemble code (len - 1)
  some (head ++ body)

/-- The flag `dump` of `build_line` (lines 168-175): whether the raw-mode branch is taken. -/
def dump_flag (code : List Byte) (remain : Int) : Option Bool := do
  let c0 ← code.get? 0
  some (decide (remain < get_immediate_size c0 + 1))

/-- The byte that an instruction text stands for: the inverse of `put_instruction`. The
first three characters are looked up in the tables, the others are the modifiers. -/
def assemble (text : List Char) : Option Byte :=
  let m := some (String.mk (text.take 3))
  let modifiers := text.drop 3
  let flags := (if '2' ∈ modifiers then 0x20 else 0) + (if 'k' ∈ modifiers then 0x80 else 0) +
    (if 'r' ∈ modifiers then 0x40 else 0)
  let op := opecodeX.indexOf m
  let op0 := opecode0.indexOf m
  if op < opecodeX.length then some (Fin.ofNat (op + flags))
  else if op0 < 4 then some (Fin.ofNat (op0 * 0x20))
  else if op0 < opecode0.length then some (Fin.ofNat (0x80 + flags))
  else none

/-! ## Hexadecimal output -/

theorem toDigitsCore_succ (f n : Nat) (ds : List Char) :
    Nat.toDigitsCore 16 (f + 1) n ds =
      if n / 16 = 0 then Nat.digitChar (n % 16) :: ds
      else Nat.toDigitsCore 16 f (n / 16) (Nat.digitChar (n % 16) :: ds) := by
  simp [Nat.toDigitsCore]

theorem toDigitsCore_fuel (k : Nat) : ∀ (f n : Nat) (ds : List Char),
    n < 16 ^ (k + 1) → n < 16 ^ (f + 1) →
    Nat.toDigitsCore 16 (f + 1) n ds = Nat.toDigitsCore 16 (k + 1) n ds := by
  induction k with
  | zero =>
    intro f n ds hk _
    have h0 : n / 16 = 0 := by omega
    rw [toDigitsCore_succ, toDigitsCore_succ, if_pos h0, if_pos h0]
  | succ k ih =>
    intro f n ds hk hf
    by_cases h0 : n / 16 = 0
    · rw [toDigitsCore_succ, toDigitsCore_succ, if_pos h0, if_pos h0]
    · cases f with
      | zero => omega
      | succ f =>
        have h1 : n / 16 < 16 ^ (k + 1) := by
          rw [Nat.div_lt_iff_lt_mul (by norm_num)]; rw [pow_succ] at hk; exact hk
        have h2 : n / 16 < 16 ^ (f + 1) := by
          rw [Nat.div_lt_iff_lt_mul (by norm_num)]; rw [pow_succ] at hf; exact hf
        rw [toDigitsCore_succ (f + 1), toDigitsCore_succ (k + 1), if_neg h0, if_neg h0]
        exact ih f (n / 16) _ h1 h2

/-- A 16-bit value printed with `%04x` is its four hexadecimal digits. -/
theorem fmt_0x_four (v : Nat) (h : v < 65536) :
    fmt_0x 4 v = [Nat.digitChar (v / 4096), Nat.digitChar (v / 256 % 16),
      Nat.digitChar (v / 16 % 16), Nat.digitChar (v % 16)] := by
  have hf : v < 16 ^ (v + 1) :=
    Nat.lt_of_lt_of_le (Nat.lt_pow_self (by norm_num) v)
      (Nat.pow_le_pow_right (by norm_num) (by omega))
  have e : Nat.toDigits 16 v = Nat.toDigitsCore 16 4 v [] :=
    toDigitsCore_fuel 3 v v [] (by norm_num; exact h) hf
  have a : v / 4096 = v / 16 / 16 / 16 := by omega
  have b : v / 256 = v / 16 / 16 := by omega
  have z : Nat.digitChar 0 = '0' := rfl
  unfold fmt_0x
  rw [e, a, b]
  by_cases h1 : v / 16 = 0
  · simp [toDigitsCore_succ, h1, z]
  · by_cases h2 : v / 16 / 16 = 0
    · have c : v / 16 % 16 = v / 16 := by omega
      simp [toDigitsCore_succ, h1, h2, z, c]
    · by_cases h3 : v / 16 / 16 / 16 = 0
      · have c : v / 16 / 16 % 16 = v / 16 / 16 := by omega
        simp [toDigitsCore_succ, h1, h2, h3, z, c]
      · have d : v / 16 / 16 / 16 / 16 = 0 := by omega
        have c : v / 16 / 16 / 16 % 16 = v / 16 / 16 / 16 := by omega
        simp [toDigitsCore_succ, h1, h2, h3, d, c]

/-- A byte printed with `%02x ` is its two hexadecimal digits and a space. -/
theorem put_hex8_eq : ∀ b : Byte, put_hex8 b = hex_pair b ++ [' '] := by
  decide

theorem put_hex8_length (b : Byte) : (put_hex8 b).length = 3 := by
  rw [put_hex8_eq]; rfl

theorem put_hex16_length (v : Nat) : (put_hex16 v).length = 5 := by
  unfold put_hex16
  rw [fmt_0x_four _ (Nat.mod_lt _ (by norm_num))]; rfl

/-! ## The instruction decoder -/

/-- C2: `get_immediate_size` is 1 for 0x80 and 0xC0, 2 for 0xA0 and 0xE0 and 0 for each of
the other 252 bytes; it is not zero exactly when bit 7 is set and the low five bits are
zero, and then it is 2 when bit 5 is set and 1 when it is not. -/
theorem get_immediate_size_exact (b : Byte) :
    get_immediate_size b =
      (if b.val = 0x80 ∨ b.val = 0xC0 then 1
       else if b.val = 0xA0 ∨ b.val = 0xE0 then 2 else 0) ∧
    (get_immediate_size b ≠ 0 ↔ (b.val.testBit 7 = true ∧ b.val % 32 = 0)) ∧
    (get_immediate_size b ≠ 0 →
      (get_immediate_size b = 2 ↔ b.val.testBit 5 = true) ∧
      (get_immediate_size b = 1 ↔ b.val.testBit 5 = false)) ∧
    ((List.finRange 256).filter fun c => get_immediate_size c = 0).length = 252 := by
  revert b
  decide

/-- C3: for every byte `put_instruction` reads a table entry that exists and is not NULL
(entry 0 of `opecodeX` is read for no byte), writes that non-empty mnemonic followed by
modifier characters among `2`, `k` and `r`, and `get_immediate_size` is 0, 1 or 2. -/
theorem decode_total (b : Byte) :
    ∃ m : String,
      (if b.val &&& 0x1f ≠ 0 then
         0 < (b.val &&& 0x1f) ∧ opecodeX.get? (b.val &&& 0x1f) = some (some m)
       else opecode0.get? (b.val >>> 5) = some (some m)) ∧
      select_mnemonic b = some m ∧ m ≠ "" ∧
      put_instruction b = some (m.toList ++ put_modifiers (modifier_bits b)) ∧
      (∀ c ∈ put_modifiers (modifier_bits b), c = '2' ∨ c = 'k' ∨ c = 'r') ∧
      (get_immediate_size b = 0 ∨ get_immediate_size b = 1 ∨ get_immediate_size b = 2) :=
  ⟨(select_mnemonic b).getD "", by revert b; decide⟩

/-- C4: for a byte whose low five bits `n` are not zero, `put_instruction` writes the
`n`-th base mnemonic (counted from 1), then `2` iff bit 5 is set, then `k` iff bit 7 is
set, then `r` iff bit 6 is set. -/
theorem base_rendering (b : Byte) (h : b.val &&& 0x1f ≠ 0) :
    ∃ m : String,
      base_mnemonics.get? ((b.val &&& 0x1f) - 1) = some m ∧
      put_instruction b = some (m.toList ++
        (if b.val.testBit 5 then ['2'] else []) ++
        (if b.val.testBit 7 then ['k'] else []) ++
        (if b.val.testBit 6 then ['r'] else [])) :=
  ⟨(base_mnemonics.get? ((b.val &&& 0x1f) - 1)).getD "", by revert b; decide⟩

/-- C4 at the bytes 0x01, 0x21 and 0xff: `INC`, `INC2` and `SFT2kr`. -/
theorem base_rendering_witness :
    put_instruction 0x01 = some "INC".toList ∧
    put_instruction 0x21 = some "INC2".toList ∧
    put_instruction 0xff = some "SFT2kr".toList := by
  obtain ⟨m1, h1, e1⟩ := base_rendering 0x01 (by decide)
  obtain ⟨m2, h2, e2⟩ := base_rendering 0x21 (by decide)
  obtain ⟨m3, h3, e3⟩ := base_rendering 0xff (by decide)
  have k1 : m1 = "INC" := by
    have : some m1 = some "INC" := h1.symm.trans (by decide)
    exact Option.some.inj this
  have k2 : m2 = "INC" := by
    have : some m2 = some "INC" := h2.symm.trans (by decide)
    exact Option.some.inj this
  have k3 : m3 = "SFT" := by
    have : some m3 = some "SFT" := h3.symm.trans (by decide)
    exact Option.some.inj this
  subst k1 k2 k3
  exact ⟨e1, e2, e3⟩

/-- C5: for a byte with low five bits zero and bit 7 set (0x80, 0xA0, 0xC0, 0xE0),
`put_instruction` writes `LIT`, then `2` iff bit 5 is set, then `r` iff bit 6 is set, and
no `k`; for the byte 0x00 it writes `BRK` and nothing else. -/
theorem lit_brk_rendering :
    (∀ b : Byte, b.val &&& 0x1f = 0 → b.val.testBit 7 = true →
      (b = 0x80 ∨ b = 0xA0 ∨ b = 0xC0 ∨ b = 0xE0) ∧
      put_instruction b = some ("LIT".toList ++
        (if b.val.testBit 5 then ['2'] else []) ++
        (if b.val.testBit 6 then ['r'] else [])) ∧
      'k' ∉ (put_instruction b).getD []) ∧
    put_instruction 0x80 = some "LIT".toList ∧
    put_instruction 0xA0 = some "LIT2".toList ∧
    put_instruction 0xC0 = some "LITr".toList ∧
    put_instruction 0xE0 = some "LIT2r".toList ∧
    put_instruction 0x00 = some "BRK".toList := by
  decide


/-! ## The loops over the consumed bytes -/

theorem put_hexdump_loop_eq : ∀ (bin : List Byte) (n : Nat), n ≤ bin.length →
    put_hexdump_loop bin n = some ((bin.take n).flatMap put_hex8)
  | _, 0, _ => by simp [put_hexdump_loop]
  | [], n + 1, h => by simp at h
  | b :: bin, n + 1, h => by
    have ih := put_hexdump_loop_eq bin n (by simpa using h)
    simp [put_hexdump_loop, ih]

theorem put_asciidump_loop_eq : ∀ (bin : List Byte) (n : Nat), n ≤ bin.length →
    put_asciidump_loop bin n = some ((bin.take n).map ascii_char)
  | _, 0, _ => by simp [put_asciidump_loop]
  | [], n + 1, h => by simp at h
  | b :: bin, n + 1, h => by
    have ih := put_asciidump_loop_eq bin n (by simpa using h)
    simp [put_asciidump_loop, ih]

theorem put_dump_loop_eq (code : List Byte) : ∀ (n i : Nat), i + n ≤ code.length →
    put_dump_loop code i n = some (((code.drop i).take n).flatMap put_hex8)
  | 0, i, _ => by simp [put_dump_loop]
  | n + 1, i, h => by
    have hi : i < code.length := by omega
    have ih := put_dump_loop_eq code n (i + 1) (by omega)
    have hd : code.drop i = code[i] :: code.drop (i + 1) := List.drop_eq_getElem_cons hi
    have hg : code.get? i = some code[i] := by simp [List.getElem?_eq_getElem hi]
    rw [hd, put_dump_loop, hg, ih]
    simp only [Option.bind_eq_bind, Option.some_bind, List.take_succ_cons, List.flatMap_cons]

theorem flatMap_put_hex8_length (l : List Byte) :
    (l.flatMap put_hex8).length = 3 * l.length := by
  induction l with
  | nil => rfl
  | cons b l ih => simp [List.flatMap_cons, put_hex8_length, ih]; omega

/-- The hex dump of the first `n` bytes of `code`, when it has that many. -/
theorem put_hexdump_eq (code : List Byte) (n : Nat) (h : n ≤ code.length) :
    put_hexdump code n = some ((code.take n).flatMap put_hex8) := by
  simp [put_hexdump, put_hexdump_loop_eq code n h]

theorem put_asciidump_eq (code : List Byte) (n : Nat) (h : n ≤ code.length) :
    put_asciidump code n = some ((code.take n).map ascii_char) := by
  simp [put_asciidump, put_asciidump_loop_eq code n h]

theorem put_dump_eq (code : List Byte) (n : Nat) (h : n ≤ code.length) :
    put_dump code n = some ((code.take n).flatMap put_hex8) := by
  simp [put_dump, put_dump_loop_eq code n 0 (by simpa using h)]

/-- The comment part of a line showing the first `n` bytes of `code`. -/
theorem put_comment_eq (address : Nat) (code : List Byte) (n : Nat) (h : n ≤ code.length) :
    put_comment address code n = some ("( ".toList ++ put_hex16 (address % 65536 + OFFSET) ++
      (code.take n).flatMap put_hex8 ++ put_space (9 - 3 * (n : Int)) ++
      (code.take n).map ascii_char ++ put_space (3 - (n : Int)) ++ " )\t".toList) := by
  have hl : (((code.take n).flatMap put_hex8).length : Int) = 3 * (n : Int) := by
    rw [flatMap_put_hex8_length, List.length_take, Nat.min_eq_left h]; push_cast; rfl
  have ha : (((code.take n).map ascii_char).length : Int) = (n : Int) := by
    simp [Nat.min_eq_left h]
  unfold put_comment
  rw [put_hexdump_eq code n h, put_asciidump_eq code n h]
  simp only [Option.bind_eq_bind, Option.some_bind, hl, ha, HEXDUMP_WIDTH]
  rfl

/-! ## Reserved codes -/

/-- C6, as the specification states it, fails at the byte 0x20: the table entry is the
three characters `20 ` and not the two characters `20`, and so is the decode-mode body. -/
theorem reserved_two_chars_fails :
    select_mnemonic 0x20 = some "20 " ∧ select_mnemonic 0x20 ≠ some "20" ∧
    put_disassemble [0x20] (get_immediate_size 0x20) = some "20 ".toList ∧
    put_disassemble [0x20] (get_immediate_size 0x20) ≠ some "20".toList := by
  decide

/-- C6, amended: for the reserved bytes 0x20, 0x40 and 0x60 the mnemonic is the byte's two
hex digits followed by one space (`20 `, `40 `, `60 `), the modifier suffix is empty and the
immediate length is 0, so the decode-mode body is exactly those three characters. -/
theorem reserved_rendering (rest : List Byte) :
    (select_mnemonic 0x20 = some "20 " ∧ select_mnemonic 0x40 = some "40 " ∧
      select_mnemonic 0x60 = some "60 ") ∧
    (put_modifiers (modifier_bits 0x20) = [] ∧ put_modifiers (modifier_bits 0x40) = [] ∧
      put_modifiers (modifier_bits 0x60) = []) ∧
    (get_immediate_size 0x20 = 0 ∧ get_immediate_size 0x40 = 0 ∧
      get_immediate_size 0x60 = 0) ∧
    put_disassemble (0x20 :: rest) 0 = some "20 ".toList ∧
    put_disassemble (0x40 :: rest) 0 = some "40 ".toList ∧
    put_disassemble (0x60 :: rest) 0 = some "60 ".toList := by
  have h2 : put_instruction 0x20 = some "20 ".toList := by decide
  have h4 : put_instruction 0x40 = some "40 ".toList := by decide
  have h6 : put_instruction 0x60 = some "60 ".toList := by decide
  refine ⟨by decide, by decide, by decide, ?_, ?_, ?_⟩
  · simp [put_disassemble, h2]
  · simp [put_disassemble, h4]
  · simp [put_disassemble, h6]


/-! ## One line -/

theorem put_instruction_some : ∀ b : Byte,
    put_instruction b = some ((put_instruction b).getD []) ∧
    ((put_instruction b).getD []).length ≤ 6 := by
  decide

theorem get_immediate_size_cases : ∀ b : Byte,
    get_immediate_size b = 0 ∨ get_immediate_size b = 1 ∨ get_immediate_size b = 2 := by
  decide

/-- The two branches of `build_line` are a raw-mode line and a decode-mode line. -/
theorem build_line_eq (address : Nat) (c0 : Byte) (rest : List Byte) (remain : Int) :
    build_line address (c0 :: rest) remain =
      if remain < get_immediate_size c0 + 1 then
        (raw_line address (c0 :: rest) remain).map fun line => (line, remain)
      else
        (decode_line address (c0 :: rest) (get_immediate_size c0 + 1)).map fun line =>
          (line, get_immediate_size c0 + 1) := by
  unfold build_line raw_line decode_line
  simp only [List.get?_cons_zero, Option.bind_eq_bind, Option.some_bind]
  by_cases h : remain < get_immediate_size c0 + 1
  · simp only [if_pos h]
    cases put_comment address (c0 :: rest) remain <;> simp
  · simp only [if_neg h]
    cases put_comment address (c0 :: rest) (get_immediate_size c0 + 1) <;> simp

/-- A raw-mode line of `n` bytes exists when `code` has `n` bytes. -/
theorem raw_line_eq (address : Nat) (code : List Byte) (n : Nat) (h : n ≤ code.length) :
    raw_line address code n = some ("( ".toList ++ put_hex16 (address % 65536 + OFFSET) ++
      (code.take n).flatMap put_hex8 ++ put_space (9 - 3 * (n : Int)) ++
      (code.take n).map ascii_char ++ put_space (3 - (n : Int)) ++ " )\t".toList ++
      (code.take n).flatMap put_hex8) := by
  unfold raw_line
  rw [put_comment_eq address code n h, put_dump_eq code n h]
  rfl

theorem put_hex16_pair (c1 c2 : Byte) :
    put_hex16 ((c1.val <<< 8) ||| c2.val) = hex_pair c1 ++ hex_pair c2 ++ [' '] := by
  have h1 := c1.isLt
  have h2 := c2.isLt
  have e : (c1.val <<< 8) ||| c2.val = 256 * c1.val + c2.val := by
    have := Nat.mul_add_lt_is_or (i := 8) (b := c2.val) (by simp) c1.val
    rw [Nat.shiftLeft_eq, Nat.mul_comm]
    simpa using this.symm
  have hv : 256 * c1.val + c2.val < 65536 := by omega
  unfold put_hex16
  rw [e, Nat.mod_eq_of_lt hv, fmt_0x_four _ hv]
  have a : (256 * c1.val + c2.val) / 4096 = c1.val / 16 := by omega
  have b : (256 * c1.val + c2.val) / 256 % 16 = c1.val % 16 := by omega
  have c : (256 * c1.val + c2.val) / 16 % 16 = c2.val / 16 := by omega
  have d : (256 * c1.val + c2.val) % 16 = c2.val % 16 := by omega
  rw [a, b, c, d]
  rfl

/-- What `put_disassemble` writes for an instruction whose `imm` immediate bytes are there:
the instruction, and for a literal the padding to column 7, the hex digits of the immediate
bytes and a space. -/
theorem put_disassemble_eq (c0 : Byte) (rest : List Byte)
    (h : (get_immediate_size c0).toNat ≤ rest.length) :
    put_disassemble (c0 :: rest) (get_immediate_size c0) =
      some (if get_immediate_size c0 = 0 then (put_instruction c0).getD []
        else (put_instruction c0).getD [] ++
          List.replicate (7 - ((put_instruction c0).getD []).length) ' ' ++
          (rest.take (get_immediate_size c0).toNat).flatMap hex_pair ++ [' ']) := by
  have hi := (put_instruction_some c0).1
  have hp : ∀ ins : List Char, put_space (INSTRUCTION_STRING_LEN + MODIFIER_STRING_LEN + 1 -
      (ins.length : Int)) = List.replicate (7 - ins.length) ' ' := by
    intro ins
    unfold put_space INSTRUCTION_STRING_LEN MODIFIER_STRING_LEN
    congr 1
    omega
  unfold put_disassemble
  rw [List.get?_cons_zero]
  simp only [Option.bind_eq_bind, Option.some_bind]
  rw [hi]
  simp only [Option.some_bind, Option.getD_some, hp]
  rcases get_immediate_size_cases c0 with h0 | h1 | h2
  · simp [h0]
  · rw [h1] at h ⊢
    cases rest with
    | nil => simp at h
    | cons c1 rest =>
      simp [put_hex8_eq, hex_pair]
  · rw [h2] at h ⊢
    cases rest with
    | nil => simp at h
    | cons c1 rest =>
      cases rest with
      | nil => simp at h
      | cons c2 rest =>
        simp [put_hex16_pair, hex_pair]


/-- The text of a decode-mode line for an instruction whose immediate bytes are there. -/
theorem decode_line_eq (address : Nat) (c0 : Byte) (rest : List Byte)
    (h : (get_immediate_size c0).toNat ≤ rest.length) :
    ∃ head body,
      put_comment address (c0 :: rest) (get_immediate_size c0 + 1) = some head ∧
      put_disassemble (c0 :: rest) (get_immediate_size c0) = some body ∧
      decode_line address (c0 :: rest) (get_immediate_size c0 + 1) = some (head ++ body) := by
  have hn : get_immediate_size c0 + 1 = (((get_immediate_size c0).toNat + 1 : Nat) : Int) := by
    rcases get_immediate_size_cases c0 with h0 | h0 | h0 <;> rw [h0] <;> rfl
  have hc := put_comment_eq address (c0 :: rest) ((get_immediate_size c0).toNat + 1)
    (by simpa using h)
  have hd := put_disassemble_eq c0 rest h
  rw [← hn] at hc
  refine ⟨_, _, hc, hd, ?_⟩
  unfold decode_line
  rw [hc, add_sub_cancel_right, hd]
  rfl

/-- With too few bytes left, `build_line` writes a raw-mode line and returns `remain`. -/
theorem build_line_raw (address : Nat) (c0 : Byte) (rest : List Byte)
    (h : ((rest.length + 1 : Nat) : Int) < get_immediate_size c0 + 1) :
    ∃ head body,
      put_comment address (c0 :: rest) ((rest.length + 1 : Nat) : Int) = some head ∧
      put_dump (c0 :: rest) ((rest.length + 1 : Nat) : Int) = some body ∧
      raw_line address (c0 :: rest) ((rest.length + 1 : Nat) : Int) = some (head ++ body) ∧
      build_line address (c0 :: rest) ((rest.length + 1 : Nat) : Int) =
        some (head ++ body, ((rest.length + 1 : Nat) : Int)) := by
  have hc := put_comment_eq address (c0 :: rest) (rest.length + 1) (by simp)
  have hd := put_dump_eq (c0 :: rest) (rest.length + 1) (by simp)
  have hr : ∀ line, raw_line address (c0 :: rest) ((rest.length + 1 : Nat) : Int) = some line →
      build_line address (c0 :: rest) ((rest.length + 1 : Nat) : Int) =
        some (line, ((rest.length + 1 : Nat) : Int)) := by
    intro line hline
    rw [build_line_eq, if_pos h, hline]
    rfl
  refine ⟨_, _, hc, hd, ?_, ?_⟩
  · unfold raw_line
    rw [hc, hd]
    rfl
  · apply hr
    unfold raw_line
    rw [hc, hd]
    rfl

/-- With enough bytes left, `build_line` writes a decode-mode line and returns the
length of the instruction. -/
theorem build_line_decode (address : Nat) (c0 : Byte) (rest : List Byte)
    (h : ¬ ((rest.length + 1 : Nat) : Int) < get_immediate_size c0 + 1) :
    ∃ head body,
      put_comment address (c0 :: rest) (get_immediate_size c0 + 1) = some head ∧
      put_disassemble (c0 :: rest) (get_immediate_size c0) = some body ∧
      decode_line address (c0 :: rest) (get_immediate_size c0 + 1) = some (head ++ body) ∧
      build_line address (c0 :: rest) ((rest.length + 1 : Nat) : Int) =
        some (head ++ body, get_immediate_size c0 + 1) := by
  have hl : (get_immediate_size c0).toNat ≤ rest.length := by
    rcases get_immediate_size_cases c0 with h0 | h0 | h0 <;> rw [h0] at h ⊢ <;>
      simp at h ⊢ <;> omega
  obtain ⟨head, body, hc, hd, hr⟩ := decode_line_eq address c0 rest hl
  refine ⟨head, body, hc, hd, hr, ?_⟩
  rw [build_line_eq, if_neg h, hr]
  rfl

/-- The bytes from the cursor on, and their number. -/
theorem drop_cursor (image : List Byte) (cursor : Nat) (h : cursor < image.length) :
    image.drop cursor = image[cursor] :: image.drop (cursor + 1) ∧
    (image.length : Int) - (cursor : Int) =
      (((image.drop (cursor + 1)).length + 1 : Nat) : Int) := by
  refine ⟨List.drop_eq_getElem_cons h, ?_⟩
  rw [List.length_drop]
  omega

theorem put_hex8_fun : put_hex8 = fun b => hex_pair b ++ [' '] :=
  funext put_hex8_eq

theorem flatMap_hex_pair_length (l : List Byte) :
    (l.flatMap fun b => hex_pair b ++ [' ']).length = 3 * l.length := by
  rw [← put_hex8_fun]
  exact flatMap_put_hex8_length l

/-- The comment part of a line that shows `k ≤ 3` bytes, field by field; it has 22
characters. -/
theorem put_comment_layout (address : Nat) (code : List Byte) (k : Nat)
    (hk : k ≤ code.length) (h3 : k ≤ 3) :
    put_comment address code k = some ("( ".toList ++
      (fmt_0x 4 ((address % 65536 + 256) % 65536) ++ [' ']) ++
      (((code.take k).flatMap fun b => hex_pair b ++ [' ']) ++ List.replicate (9 - 3 * k) ' ') ++
      ((code.take k).map ascii_char ++ List.replicate (3 - k) ' ') ++ " )\t".toList) ∧
    (fmt_0x 4 ((address % 65536 + 256) % 65536)).length = 4 ∧
    (((code.take k).flatMap fun b => hex_pair b ++ [' ']) ++
      List.replicate (9 - 3 * k) ' ').length = 9 ∧
    ((code.take k).map ascii_char ++ List.replicate (3 - k) ' ').length = 3 := by
  have e9 : put_space (9 - 3 * (k : Int)) = List.replicate (9 - 3 * k) ' ' := by
    unfold put_space; congr 1; omega
  have e3 : put_space (3 - (k : Int)) = List.replicate (3 - k) ' ' := by
    unfold put_space; congr 1; omega
  refine ⟨?_, ?_, ?_, ?_⟩
  · rw [put_comment_eq address code k hk, e9, e3, put_hex8_fun]
    simp [put_hex16, OFFSET, List.append_assoc]
  · rw [fmt_0x_four _ (Nat.mod_lt _ (by norm_num))]; rfl
  · rw [List.length_append, flatMap_hex_pair_length, List.length_take, Nat.min_eq_left hk,
      List.length_replicate]
    omega
  · rw [List.length_append, List.length_map, List.length_take, Nat.min_eq_left hk,
      List.length_replicate]
    omega

/-- C9: when the instruction at the cursor is a literal push (bytes `c0 :: rest` from the
cursor on, `get_immediate_size c0` not zero) and its immediate bytes are there, the body is
the mnemonic with its suffix, padded with spaces to exactly 7 characters, then the
immediate and one space; the immediate is the two hex digits of each immediate byte in the
order of the image, so 2 digits for one byte and 4 digits, high byte first, for two. -/
theorem immediate_body (address : Nat) (c0 : Byte) (rest : List Byte)
    (hlit : get_immediate_size c0 ≠ 0) (hlen : (get_immediate_size c0).toNat ≤ rest.length) :
    ∃ head ins body,
      put_comment address (c0 :: rest) (get_immediate_size c0 + 1) = some head ∧
      put_instruction c0 = some ins ∧
      put_disassemble (c0 :: rest) (get_immediate_size c0) = some body ∧
      build_line address (c0 :: rest) ((rest.length + 1 : Nat) : Int) =
        some (head ++ body, get_immediate_size c0 + 1) ∧
      body = (ins ++ List.replicate (7 - ins.length) ' ') ++
        (rest.take (get_immediate_size c0).toNat).flatMap hex_pair ++ [' '] ∧
      (ins ++ List.replicate (7 - ins.length) ' ').length = 7 ∧
      (get_immediate_size c0 = 1 → ∃ c1 tail, rest = c1 :: tail ∧
        (rest.take (get_immediate_size c0).toNat).flatMap hex_pair = hex_pair c1) ∧
      (get_immediate_size c0 = 2 → ∃ c1 c2 tail, rest = c1 :: c2 :: tail ∧
        (rest.take (get_immediate_size c0).toNat).flatMap hex_pair =
          hex_pair c1 ++ hex_pair c2) := by
  have hge : ¬ ((rest.length + 1 : Nat) : Int) < get_immediate_size c0 + 1 := by
    rcases get_immediate_size_cases c0 with h0 | h0 | h0 <;> rw [h0] at hlen ⊢ <;>
      simp at hlen ⊢ <;> omega
  obtain ⟨head, body, hc, hb, _, hbl⟩ := build_line_decode address c0 rest hge
  obtain ⟨hi, hi6⟩ := put_instruction_some c0
  have hbody := hb.symm.trans (put_disassemble_eq c0 rest hlen)
  rw [if_neg hlit] at hbody
  refine ⟨head, (put_instruction c0).getD [], body, hc, hi, hb, hbl, Option.some.inj hbody,
    ?_, ?_, ?_⟩
  · rw [List.length_append, List.length_replicate]; omega
  · intro h1
    rw [h1] at hlen ⊢
    cases rest with
    | nil => simp at hlen
    | cons c1 tail => exact ⟨c1, tail, rfl, by simp⟩
  · intro h2
    rw [h2] at hlen ⊢
    cases rest with
    | nil => simp at hlen
    | cons c1 tail =>
      cases tail with
      | nil => simp at hlen
      | cons c2 tail => exact ⟨c1, c2, tail, rfl, by simp⟩

/-- C9 at the images `[0x80, 0x41]` and `[0xA0, 0x12, 0x34]`: the bodies are
`LIT    41 ` and `LIT2   1234 `. -/
theorem immediate_body_witness :
    put_disassemble [0x80, 0x41] 1 = some "LIT    41 ".toList ∧
    put_disassemble [0xA0, 0x12, 0x34] 2 = some "LIT2   1234 ".toList ∧
    (build_line 0 [0x80, 0x41] 2).map Prod.fst =
      some "( 0100 80 41    .A  )\tLIT    41 ".toList ∧
    (build_line 0 [0xA0, 0x12, 0x34] 3).map Prod.fst =
      some "( 0100 a0 12 34 ..4 )\tLIT2   1234 ".toList := by
  obtain ⟨_, ins1, body1, _, hi1, hd1, _, hb1, _⟩ :=
    immediate_body 0 0x80 [0x41] (by decide) (by decide)
  obtain ⟨_, ins2, body2, _, hi2, hd2, _, hb2, _⟩ :=
    immediate_body 0 0xA0 [0x12, 0x34] (by decide) (by decide)
  have k1 : ins1 = "LIT".toList :=
    Option.some.inj (hi1.symm.trans (by decide))
  have k2 : ins2 = "LIT2".toList :=
    Option.some.inj (hi2.symm.trans (by decide))
  subst k1 k2
  have b1 : body1 = "LIT    41 ".toList := hb1.trans (by decide)
  have b2 : body2 = "LIT2   1234 ".toList := hb2.trans (by decide)
  subst b1 b2
  exact ⟨hd1, hd2, by decide, by decide⟩

theorem to_size_t_natCast (n : Nat) (h : n < 18446744073709551616) :
    to_size_t (n : Int) = n := by
  unfold to_size_t
  omega

theorem to_int_small (x : Int) (h1 : -2147483648 ≤ x) (h2 : x < 2147483648) :
    to_int x = x := by
  unfold to_int
  omega

/-- One iteration of the loop in an image shorter than `2 ^ 31` bytes, at a cursor inside
the image: the conversions change nothing. -/
theorem disassemble_loop_step (image : List Byte) (hsize : image.length < 2147483648)
    (fuel i : Nat) (hi : i < image.length) :
    disassemble_loop image (fuel + 1) (i : Int) =
      (build_line i (image.drop i) ((image.length : Int) - i)).bind fun p =>
        if (i : Int) + p.2 < INT_MIN ∨ INT_MAX < (i : Int) + p.2 then none
        else (disassemble_loop image fuel ((i : Int) + p.2)).bind fun rest =>
          some (⟨i, p.2, p.1⟩ :: rest) := by
  have t1 : to_size_t (i : Int) = i := to_size_t_natCast i (by omega)
  have t2 : to_size_t (image.length : Int) = image.length :=
    to_size_t_natCast image.length (by omega)
  have t3 : to_int ((image.length : Int) - (i : Int)) = (image.length : Int) - i :=
    to_int_small _ (by omega) (by omega)
  rw [disassemble_loop, t1, t2, if_pos hi, if_neg (by omega), Int.toNat_ofNat, t3]
  rfl

/-- The loop ends when the cursor has reached the end of the image. -/
theorem disassemble_loop_done (image : List Byte) (hsize : image.length < 2147483648)
    (fuel i : Nat) (hi : ¬ i < image.length) (hi2 : i < 2147483648) :
    disassemble_loop image fuel (i : Int) = some [] := by
  have t1 : to_size_t (i : Int) = i := to_size_t_natCast i (by omega)
  have t2 : to_size_t (image.length : Int) = image.length :=
    to_size_t_natCast image.length (by omega)
  cases fuel with
  | zero => rw [disassemble_loop, t1, t2, if_neg hi]
  | succ fuel => rw [disassemble_loop, t1, t2, if_neg hi]

/-- With at least one byte remaining, `build_line` succeeds and returns a count between 1
and 3 that does not exceed the number of bytes remaining. -/
theorem build_line_count (image : List Byte) (cursor : Nat) (h : cursor < image.length) :
    ∃ (line : List Char) (k : Nat),
      build_line cursor (image.drop cursor) ((image.length : Int) - cursor) =
        some (line, (k : Int)) ∧
      1 ≤ k ∧ k ≤ 3 ∧ cursor + k ≤ image.length := by
  obtain ⟨hd, hr⟩ := drop_cursor image cursor h
  have hlen : (image.drop (cursor + 1)).length + 1 = image.length - cursor := by
    rw [List.length_drop]; omega
  rw [hd, hr]
  by_cases hlt : (((image.drop (cursor + 1)).length + 1 : Nat) : Int) <
      get_immediate_size image[cursor] + 1
  · obtain ⟨head, body, _, _, _, hbl⟩ :=
      build_line_raw cursor image[cursor] (image.drop (cursor + 1)) hlt
    refine ⟨_, _, hbl, by omega, ?_, by omega⟩
    rcases get_immediate_size_cases image[cursor] with h0 | h0 | h0 <;> rw [h0] at hlt <;> omega
  · obtain ⟨head, body, _, _, _, hbl⟩ :=
      build_line_decode cursor image[cursor] (image.drop (cursor + 1)) hlt
    have hn : get_immediate_size image[cursor] + 1 =
        (((get_immediate_size image[cursor]).toNat + 1 : Nat) : Int) := by
      rcases get_immediate_size_cases image[cursor] with h0 | h0 | h0 <;> rw [h0] <;> rfl
    rw [hn] at hbl hlt
    refine ⟨_, _, hbl, by omega, ?_, by omega⟩
    rcases get_immediate_size_cases image[cursor] with h0 | h0 | h0 <;> rw [h0] <;> decide

/-- The loop of `disassemble_all` in an image shorter than `2 ^ 31` bytes, started at a
cursor `i` inside the image with at least `length - i` iterations allowed, ends; the
counts returned by `build_line` add up to the number of bytes from `i` on, and each
cursor is `i` plus the counts returned before. -/
theorem disassemble_loop_spec (image : List Byte) (hsize : image.length < 2147483648) :
    ∀ (fuel i : Nat), i ≤ image.length → image.length - i ≤ fuel →
    ∃ steps, disassemble_loop image fuel (i : Int) = some steps ∧
      (steps.map Step.consumed).sum = (image.length : Int) - i ∧
      (∀ (k : Nat) (hk : k < steps.length),
        steps[k].cursor = (i : Int) + ((steps.take k).map Step.consumed).sum) ∧
      (∀ s ∈ steps, 0 ≤ s.cursor ∧ s.cursor < image.length ∧
        1 ≤ s.consumed ∧ s.consumed ≤ 3 ∧ s.cursor + s.consumed ≤ image.length ∧
        build_line s.cursor.toNat (image.drop s.cursor.toNat)
          ((image.length : Int) - s.cursor) = some (s.line, s.consumed)) := by
  intro fuel
  induction fuel with
  | zero =>
    intro i hi hf
    refine ⟨[], disassemble_loop_done image hsize 0 i (by omega) (by omega), ?_, ?_, ?_⟩
    · simp; omega
    · intro k hk; simp at hk
    · intro s hs; simp at hs
  | succ fuel ih =>
    intro i hi hf
    by_cases hlt : i < image.length
    · obtain ⟨line, k, hb, k1, k3, kl⟩ := build_line_count image i hlt
      obtain ⟨rest, hrest, hsum, hcur, hall⟩ := ih (i + k) kl (by omega)
      refine ⟨⟨i, k, line⟩ :: rest, ?_, ?_, ?_, ?_⟩
      · rw [disassemble_loop_step image hsize fuel i hlt, hb]
        simp only [Option.some_bind]
        rw [if_neg (by unfold INT_MIN INT_MAX; omega),
          show (i : Int) + (k : Int) = ((i + k : Nat) : Int) by push_cast; rfl, hrest]
        rfl
      · simp only [List.map_cons, List.sum_cons, hsum]
        push_cast
        omega
      · intro j hj
        cases j with
        | zero => simp
        | succ j =>
          have := hcur j (by simpa using hj)
          simp only [List.getElem_cons_succ, List.take_succ_cons, List.map_cons,
            List.sum_cons, this]
          push_cast
          omega
      · intro s hs
        rcases List.mem_cons.mp hs with rfl | hs
        · refine ⟨by simp, by simpa using hlt, by simpa using k1, ?_, ?_, ?_⟩
          · simp only; omega
          · simp only; omega
          · simpa using hb
        · exact hall s hs
    · refine ⟨[], disassemble_loop_done image hsize _ i hlt (by omega), ?_, ?_, ?_⟩
      · simp; omega
      · intro k hk; simp at hk
      · intro s hs; simp at hs

/-! ## Images of `2 ^ 31` bytes and more -/

/-- With no byte remaining, or a negative count, `build_line` shows no byte, writes an
empty raw-mode body and returns `remain`. -/
theorem build_line_nonpos (address : Nat) (c0 : Byte) (rest : List Byte) (remain : Int)
    (h : remain ≤ 0) :
    build_line address (c0 :: rest) remain =
      some ("( ".toList ++ put_hex16 (address % 65536 + OFFSET) ++ put_space 9 ++
        put_space 3 ++ " )\t".toList, remain) ∧
    dump_flag (c0 :: rest) remain = some true := by
  have hlt : remain < get_immediate_size c0 + 1 := by
    rcases get_immediate_size_cases c0 with h0 | h0 | h0 <;> rw [h0] <;> omega
  have hz : remain.toNat = 0 := by omega
  refine ⟨?_, ?_⟩
  · rw [build_line_eq, if_pos hlt]
    simp [raw_line, put_comment, put_hexdump, put_asciidump, put_dump, hz, put_hexdump_loop,
      put_asciidump_loop, put_dump_loop, HEXDUMP_WIDTH]
  · simp only [dump_flag, List.get?_cons_zero, Option.bind_eq_bind, Option.some_bind]
    exact congrArg some (decide_eq_true hlt)

/-- The loop stops at a cursor that, converted to `size_t`, is not below the length. -/
theorem disassemble_loop_exit (image : List Byte) (fuel : Nat) (i : Int)
    (h : ¬ to_size_t i < to_size_t image.length) :
    disassemble_loop image fuel i = some [] := by
  cases fuel with
  | zero => rw [disassemble_loop, if_neg h]
  | succ fuel => rw [disassemble_loop, if_neg h]

theorem empty_comment :
    "( ".toList ++ put_hex16 (0 % 65536 + OFFSET) ++ put_space 9 ++ put_space 3 ++
      " )\t".toList = "( 0100              )\t".toList := by
  decide

/-- In an image of `2 ^ 31` equal bytes the argument `filesize - i` of the first call is
`INT_MIN` as an `int`; `build_line` returns it, and the loop stops after this one call. -/
theorem loop_int_min (b : Byte) (n : Nat) (hn : n + 1 = 2147483648) (fuel : Nat) :
    disassemble_loop (List.replicate (n + 1) b) (fuel + 1) 0 =
      some [⟨0, -2147483648, "( 0100              )\t".toList⟩] ∧
    dump_flag (List.replicate (n + 1) b) (to_int (2147483648 - 0)) = some true := by
  have t0 : to_size_t 0 = 0 := by decide
  have t1 : to_size_t ((List.replicate (n + 1) b).length : Int) = n + 1 := by
    rw [List.length_replicate]
    exact to_size_t_natCast (n + 1) (by omega)
  have t2 : to_int (((n + 1 : Nat) : Int) - ((0 : Nat) : Int)) = -2147483648 := by
    unfold to_int
    omega
  have t3 : to_int (2147483648 - 0) = -2147483648 := by decide
  have hb := build_line_nonpos 0 b (List.replicate n b) (-2147483648) (by decide)
  rw [empty_comment] at hb
  refine ⟨?_, ?_⟩
  · have hexit : disassemble_loop (List.replicate (n + 1) b) fuel (0 + -2147483648) =
        some [] := by
      apply disassemble_loop_exit
      rw [t1]
      have : to_size_t (0 + -2147483648) = 18446744071562067968 := by decide
      rw [this]
      omega
    rw [disassemble_loop, t0, t1, if_pos (by omega), if_neg (by decide)]
    simp only [Int.toNat_zero, List.drop_zero, t2]
    rw [List.replicate_succ, hb.1]
    simp only [Option.bind_eq_bind, Option.some_bind]
    rw [if_neg (by decide), ← List.replicate_succ, hexit]
    rfl
  · rw [t3, List.replicate_succ]
    exact hb.2

/-- In an image of `2 ^ 32` equal bytes the argument `filesize - i` of the first call is 0
as an `int`; `build_line` returns 0, the cursor stays at 0, and no number of iterations
ends the loop. -/
theorem loop_zero_remain (b : Byte) (n : Nat) (hn : n + 1 = 4294967296) :
    ∀ fuel : Nat, disassemble_loop (List.replicate (n + 1) b) fuel 0 = none := by
  have t0 : to_size_t 0 = 0 := by decide
  have t1 : to_size_t ((List.replicate (n + 1) b).length : Int) = n + 1 := by
    rw [List.length_replicate]
    exact to_size_t_natCast (n + 1) (by omega)
  have t2 : to_int (((n + 1 : Nat) : Int) - ((0 : Nat) : Int)) = 0 := by
    unfold to_int
    omega
  have hb := (build_line_nonpos 0 b (List.replicate n b) 0 (le_refl _)).1
  intro fuel
  induction fuel with
  | zero => rw [disassemble_loop, t0, t1, if_pos (by omega)]
  | succ fuel ih =>
    rw [disassemble_loop, t0, t1, if_pos (by omega), if_neg (by decide)]
    simp only [Int.toNat_zero, List.drop_zero, t2]
    rw [List.replicate_succ, hb]
    simp only [Option.bind_eq_bind, Option.some_bind]
    rw [if_neg (by decide), ← List.replicate_succ, add_zero, ih]
    rfl

/-- C1, as the specification states it, fails in an image of `2 ^ 31` zero bytes: the
`int` parameter `remain` of the first call of `build_line` is `INT_MIN`, the call returns
it, the loop ends after that one call, and the counts returned do not add up to the
length of the image. -/
theorem conservation_fails :
    ∃ steps, disassemble_loop (List.replicate 2147483648 (0 : Byte)) 2147483648 0 =
        some steps ∧
      steps.map Step.consumed = [-2147483648] ∧
      (steps.map Step.consumed).sum ≠
        ((List.replicate 2147483648 (0 : Byte)).length : Int) := by
  refine ⟨_, (loop_int_min 0 2147483647 rfl 2147483647).1, rfl, ?_⟩
  rw [List.length_replicate]
  decide

/-- C1, amended: for every image shorter than `2 ^ 31` bytes, with at least as many
iterations allowed as the image has bytes, the loop of `disassemble_all` ends; the counts
that the successive calls of `build_line` return add up to the length of the image, and
the cursor of each call is the sum of the counts returned before it, the first cursor
being 0. -/
theorem conservation (image : List Byte) (hsize : image.length < 2147483648) (fuel : Nat)
    (hf : image.length ≤ fuel) :
    ∃ steps, disassemble_loop image fuel 0 = some steps ∧
      disassemble_all image fuel =
        some (("|".toList ++ fmt_0x 4 OFFSET) :: steps.map Step.line) ∧
      (∀ s ∈ steps, build_line s.cursor.toNat (image.drop s.cursor.toNat)
        ((image.length : Int) - s.cursor) = some (s.line, s.consumed)) ∧
      (steps.map Step.consumed).sum = (image.length : Int) ∧
      (∀ (k : Nat) (hk : k < steps.length),
        steps[k].cursor = ((steps.take k).map Step.consumed).sum) := by
  obtain ⟨steps, hs, hsum, hcur, hall⟩ :=
    disassemble_loop_spec image hsize fuel 0 (Nat.zero_le _) (by omega)
  refine ⟨steps, hs, ?_, ?_, ?_, ?_⟩
  · unfold disassemble_all
    rw [show (0 : Int) = ((0 : Nat) : Int) from rfl, hs]
    rfl
  · intro s hs
    exact (hall s hs).2.2.2.2.2
  · simpa using hsum
  · intro k hk
    simpa using hcur k hk

/-- C1 at the image `a0 12 34 20 ff 80`: four calls, which return 3, 1, 1 and 1 at the
cursors 0, 3, 4 and 5; and at the empty image: no call. -/
theorem conservation_witness :
    (image_of [0xa0, 0x12, 0x34, 0x20, 0xff, 0x80]).length < 2147483648 ∧
    (image_of [0xa0, 0x12, 0x34, 0x20, 0xff, 0x80]).length ≤ 6 ∧
    (∃ steps, disassemble_loop (image_of [0xa0, 0x12, 0x34, 0x20, 0xff, 0x80]) 6 0 =
        some steps ∧
      steps.map Step.consumed = [3, 1, 1, 1] ∧ steps.map Step.cursor = [0, 3, 4, 5] ∧
      (steps.map Step.consumed).sum = 6) ∧
    disassemble_loop [] 0 0 = some [] := by
  obtain ⟨steps, hs, _, _, hsum, _⟩ :=
    conservation (image_of [0xa0, 0x12, 0x34, 0x20, 0xff, 0x80]) (by decide) 6 (by decide)
  have e : disassemble_loop (image_of [0xa0, 0x12, 0x34, 0x20, 0xff, 0x80]) 6 0 = some [
      ⟨0, 3, "( 0100 a0 12 34 ..4 )\tLIT2   1234 ".toList⟩,
      ⟨3, 1, "( 0103 20           )\t20 ".toList⟩,
      ⟨4, 1, "( 0104 ff       .   )\tSFT2kr".toList⟩,
      ⟨5, 1, "( 0105 80       .   )\t80 ".toList⟩] := by decide
  have hl := Option.some.inj (hs.symm.trans e)
  subst hl
  exact ⟨by decide, by decide, ⟨_, hs, rfl, rfl, hsum⟩, by decide⟩

/-! ## The steps of the loop -/

/-- What one call of `build_line` inside the image does, by the mode it takes. -/
theorem build_line_cases (image : List Byte) (c : Nat) (h : c < image.length)
    (line : List Char) (n : Int)
    (hb : build_line c (image.drop c) ((image.length : Int) - c) = some (line, n)) :
    ((image.length : Int) - c < get_immediate_size image[c] + 1 ∧
      dump_flag (image.drop c) ((image.length : Int) - c) = some true ∧
      raw_line c (image.drop c) ((image.length : Int) - c) = some line ∧
      n = (image.length : Int) - c ∧ (n = 1 ∨ n = 2) ∧ get_immediate_size image[c] ≠ 0) ∨
    (¬ (image.length : Int) - c < get_immediate_size image[c] + 1 ∧
      dump_flag (image.drop c) ((image.length : Int) - c) = some false ∧
      decode_line c (image.drop c) (get_immediate_size image[c] + 1) = some line ∧
      n = get_immediate_size image[c] + 1) := by
  obtain ⟨hd, hr⟩ := drop_cursor image c h
  rw [hd, hr] at hb ⊢
  by_cases hlt : (((image.drop (c + 1)).length + 1 : Nat) : Int) <
      get_immediate_size image[c] + 1
  · left
    obtain ⟨head, body, _, _, h1, h2⟩ :=
      build_line_raw c image[c] (image.drop (c + 1)) hlt
    have e := Option.some.inj (hb.symm.trans h2)
    obtain ⟨e1, e2⟩ := Prod.mk.inj e
    refine ⟨hlt, ?_, by rw [e1]; exact h1, e2, ?_, ?_⟩
    · simp only [dump_flag, List.get?_cons_zero, Option.bind_eq_bind, Option.some_bind]
      exact congrArg some (decide_eq_true hlt)
    · rw [e2]
      rcases get_immediate_size_cases image[c] with h0 | h0 | h0 <;> rw [h0] at hlt <;> omega
    · intro h0
      rw [h0] at hlt
      omega
  · right
    obtain ⟨head, body, _, _, h1, h2⟩ :=
      build_line_decode c image[c] (image.drop (c + 1)) hlt
    have e := Option.some.inj (hb.symm.trans h2)
    obtain ⟨e1, e2⟩ := Prod.mk.inj e
    refine ⟨hlt, ?_, by rw [e1]; exact h1, e2⟩
    simp only [dump_flag, List.get?_cons_zero, Option.bind_eq_bind, Option.some_bind]
    exact congrArg some (decide_eq_false hlt)

theorem length_le_sum_consumed (steps : List Step) (h : ∀ s ∈ steps, 1 ≤ s.consumed) :
    (steps.length : Int) ≤ (steps.map Step.consumed).sum := by
  induction steps with
  | nil => simp
  | cons s steps ih =>
    have h1 := h s (List.mem_cons_self _ _)
    have h2 := ih fun t ht => h t (List.mem_cons_of_mem _ ht)
    simp only [List.length_cons, List.map_cons, List.sum_cons]
    push_cast
    omega

theorem sum_take_succ (steps : List Step) (k : Nat) (hk : k < steps.length) :
    ((steps.take (k + 1)).map Step.consumed).sum =
      ((steps.take k).map Step.consumed).sum + steps[k].consumed := by
  rw [List.take_succ, List.getElem?_eq_getElem hk]
  simp only [Option.toList, List.map_append, List.sum_append, List.map_cons, List.map_nil,
    List.sum_cons, List.sum_nil, add_zero]

/-- The run of the loop of `disassemble_all` over a whole image shorter than `2 ^ 31`
bytes: it ends within `length` iterations, every call of `build_line` is made with the cursor inside the image, returns
between 1 and 3 and at most the number of bytes left, the next cursor is the cursor plus
the count returned, and after the last call the cursor is the length of the image. -/
theorem disassemble_run (image : List Byte) (hsize : image.length < 2147483648)
    (fuel : Nat) (hf : image.length ≤ fuel) :
    ∃ steps, disassemble_loop image fuel 0 = some steps ∧
      steps.length ≤ image.length ∧
      (∀ (k : Nat) (hk : k < steps.length),
        0 ≤ steps[k].cursor ∧ steps[k].cursor < image.length ∧
        1 ≤ steps[k].consumed ∧ steps[k].consumed ≤ 3 ∧
        steps[k].consumed ≤ (image.length : Int) - steps[k].cursor ∧
        (k : Int) ≤ steps[k].cursor ∧
        build_line steps[k].cursor.toNat (image.drop steps[k].cursor.toNat)
          ((image.length : Int) - steps[k].cursor) = some (steps[k].line, steps[k].consumed)) ∧
      (∀ (k : Nat) (hk : k + 1 < steps.length),
        steps[k + 1].cursor = steps[k].cursor + steps[k].consumed) ∧
      (∀ (k : Nat) (hk : k < steps.length), k + 1 = steps.length →
        steps[k].cursor + steps[k].consumed = image.length) ∧
      (∀ (hk : 0 < steps.length), steps[0].cursor = 0) ∧
      (steps = [] → image = []) := by
  obtain ⟨steps, hs, hsum, hcur, hall⟩ :=
    disassemble_loop_spec image hsize fuel 0 (Nat.zero_le _) (by omega)
  simp only [Nat.cast_zero, sub_zero, zero_add] at hsum hcur
  have hone : ∀ s ∈ steps, 1 ≤ s.consumed := fun s hs => (hall s hs).2.2.1
  have hlen := length_le_sum_consumed steps hone
  refine ⟨steps, by simpa using hs, by omega, ?_, ?_, ?_, ?_, ?_⟩
  · intro k hk
    obtain ⟨a, b, c, d, e, f⟩ := hall steps[k] (List.getElem_mem hk)
    refine ⟨a, b, c, d, by omega, ?_, f⟩
    rw [hcur k hk]
    have := length_le_sum_consumed (steps.take k)
      fun s hs => hone s (List.mem_of_mem_take hs)
    rw [List.length_take, Nat.min_eq_left (by omega)] at this
    exact this
  · intro k hk
    rw [hcur (k + 1) hk, hcur k (by omega), sum_take_succ steps k (by omega)]
  · intro k hk hlast
    rw [hcur k hk, ← sum_take_succ steps k hk, hlast, List.take_length, hsum]
  · intro hk
    rw [hcur 0 hk]
    simp
  · intro he
    rw [he] at hsum
    simp at hsum
    exact List.length_eq_zero.mp (by omega)

/-- The mode of the call of `build_line` that a step of the loop records. -/
theorem step_mode (image : List Byte) (s : Step) (h0 : 0 ≤ s.cursor)
    (h1 : s.cursor < image.length)
    (hb : build_line s.cursor.toNat (image.drop s.cursor.toNat)
      ((image.length : Int) - s.cursor) = some (s.line, s.consumed)) :
    ∃ (c : Nat) (hc : c < image.length), s.cursor = c ∧
      (((image.length : Int) - c < get_immediate_size image[c] + 1 ∧
        dump_flag (image.drop c) ((image.length : Int) - c) = some true ∧
        raw_line c (image.drop c) ((image.length : Int) - c) = some s.line ∧
        s.consumed = (image.length : Int) - c ∧ (s.consumed = 1 ∨ s.consumed = 2) ∧
        get_immediate_size image[c] ≠ 0) ∨
      (¬ (image.length : Int) - c < get_immediate_size image[c] + 1 ∧
        dump_flag (image.drop c) ((image.length : Int) - c) = some false ∧
        decode_line c (image.drop c) (get_immediate_size image[c] + 1) = some s.line ∧
        s.consumed = get_immediate_size image[c] + 1)) := by
  have e : s.cursor = (s.cursor.toNat : Int) := (Int.toNat_of_nonneg h0).symm
  have hc : s.cursor.toNat < image.length := by omega
  rw [e] at hb
  simp only [Int.toNat_ofNat] at hb
  exact ⟨s.cursor.toNat, hc, e, build_line_cases image s.cursor.toNat hc s.line s.consumed hb⟩

/-- The parts of the line `build_line` writes: a comment part showing the `k` consumed
bytes, then the output of `put_dump` or of `put_disassemble`. -/
theorem build_line_parts (image : List Byte) (c : Nat) (h : c < image.length) :
    ∃ (head body : List Char) (k : Nat),
      build_line c (image.drop c) ((image.length : Int) - c) = some (head ++ body, (k : Int)) ∧
      put_comment c (image.drop c) k = some head ∧
      1 ≤ k ∧ k ≤ 3 ∧ k ≤ (image.drop c).length ∧
      (put_dump (image.drop c) k = some body ∨
        put_disassemble (image.drop c) ((k : Int) - 1) = some body) := by
  obtain ⟨hd, hr⟩ := drop_cursor image c h
  rw [hd, hr]
  generalize image[c] = c0
  generalize image.drop (c + 1) = rest
  by_cases hlt : ((rest.length + 1 : Nat) : Int) < get_immediate_size c0 + 1
  · obtain ⟨head, body, hc, hb, _, hbl⟩ := build_line_raw c c0 rest hlt
    have k3 : rest.length + 1 ≤ 3 := by
      rcases get_immediate_size_cases c0 with h0 | h0 | h0 <;> rw [h0] at hlt <;> omega
    exact ⟨head, body, rest.length + 1, hbl, hc, by omega, k3, by simp, Or.inl hb⟩
  · obtain ⟨head, body, hc, hb, _, hbl⟩ := build_line_decode c c0 rest hlt
    have hn : get_immediate_size c0 + 1 =
        (((get_immediate_size c0).toNat + 1 : Nat) : Int) := by
      rcases get_immediate_size_cases c0 with h0 | h0 | h0 <;> rw [h0] <;> rfl
    have k3 : (get_immediate_size c0).toNat + 1 ≤ 3 := by
      rcases get_immediate_size_cases c0 with h0 | h0 | h0 <;> rw [h0] <;> decide
    have kl : (get_immediate_size c0).toNat + 1 ≤ (c0 :: rest).length := by
      rw [hn] at hlt
      simp only [List.length_cons]
      omega
    rw [hn] at hc hbl
    refine ⟨head, body, (get_immediate_size c0).toNat + 1, hbl, hc, by omega, k3, kl,
      Or.inr ?_⟩
    rw [← hn, add_sub_cancel_right]
    exact hb

/-- The characters 2 to 5 of a line are the four hex digits of the address, which is the
cursor plus 256 reduced modulo 65536. -/
theorem address_field (image : List Byte) (c : Nat) (h : c < image.length)
    (line : List Char) (n : Int)
    (hb : build_line c (image.drop c) ((image.length : Int) - c) = some (line, n)) :
    (line.drop 2).take 4 = fmt_0x 4 ((c + 256) % 65536) ∧
    (fmt_0x 4 ((c + 256) % 65536)).length = 4 := by
  obtain ⟨head, body, k, hbl, hc, _, k3, kl, _⟩ := build_line_parts image c h
  obtain ⟨e, l4, _, _⟩ := put_comment_layout c (image.drop c) k kl k3
  have hh : head = _ := Option.some.inj (hc.symm.trans e)
  have hline : line = head ++ body := congrArg Prod.fst (Option.some.inj (hb.symm.trans hbl))
  have hm : (c % 65536 + 256) % 65536 = (c + 256) % 65536 := by omega
  rw [hm] at hh l4
  refine ⟨?_, l4⟩
  rw [hline, hh]
  simp only [List.append_assoc]
  exact List.take_left' l4

theorem free_immediate_size : ∀ b : Byte,
    (b ≠ 0x80 ∧ b ≠ 0xA0 ∧ b ≠ 0xC0 ∧ b ≠ 0xE0) → get_immediate_size b = 0 := by
  decide

/-- The run of the loop over an image that holds no literal push: one step for each
byte, the `k`-th at cursor `k`, in decode mode, consuming one byte. -/
theorem disassemble_free (image : List Byte) (hsize : image.length < 2147483648)
    (fuel : Nat) (hf : image.length ≤ fuel)
    (hfree : ∀ b ∈ image, b ≠ 0x80 ∧ b ≠ 0xA0 ∧ b ≠ 0xC0 ∧ b ≠ 0xE0) :
    ∃ steps, disassemble_loop image fuel 0 = some steps ∧
      steps.length = image.length ∧
      ∀ (k : Nat) (hk : k < steps.length),
        steps[k].cursor = k ∧ steps[k].consumed = 1 ∧
        dump_flag (image.drop k) ((image.length : Int) - k) = some false ∧
        decode_line k (image.drop k) 1 = some steps[k].line ∧
        build_line k (image.drop k) ((image.length : Int) - k) = some (steps[k].line, 1) := by
  obtain ⟨steps, hs, hle, hstep, hnext, hlast, hfirst, hnil⟩ := disassemble_run image hsize fuel hf
  have hone : ∀ (k : Nat) (hk : k < steps.length), steps[k].consumed = 1 ∧
      ∀ c : Nat, steps[k].cursor = c →
        dump_flag (image.drop c) ((image.length : Int) - c) = some false ∧
        decode_line c (image.drop c) 1 = some steps[k].line ∧
        build_line c (image.drop c) ((image.length : Int) - c) = some (steps[k].line, 1) := by
    intro k hk
    obtain ⟨h0, h1, _, _, _, _, hb⟩ := hstep k hk
    obtain ⟨c, hc, ec, hmode⟩ := step_mode image steps[k] h0 h1 hb
    have hz : get_immediate_size image[c] = 0 :=
      free_immediate_size _ (hfree _ (List.getElem_mem hc))
    rcases hmode with ⟨_, _, _, _, _, hne⟩ | ⟨_, hdump, hdec, hcons⟩
    · exact absurd hz hne
    · rw [hz] at hdec hcons
      refine ⟨hcons, ?_⟩
      intro c' hc'
      have : c' = c := by omega
      subst this
      refine ⟨hdump, hdec, ?_⟩
      rw [ec] at hb
      simp only [Int.toNat_ofNat] at hb
      rw [hb, hcons]
      rfl
  have hcur : ∀ (k : Nat) (hk : k < steps.length), steps[k].cursor = k := by
    intro k
    induction k with
    | zero => intro hk; simpa using hfirst hk
    | succ k ih =>
      intro hk
      rw [hnext k hk, ih (by omega), (hone k (by omega)).1]
      push_cast
      rfl
  refine ⟨steps, hs, ?_, ?_⟩
  · rcases Nat.eq_zero_or_pos steps.length with h0 | hpos
    · rw [hnil (List.length_eq_zero.mp h0)] at *
      simpa using h0
    · have hk : steps.length - 1 < steps.length := by omega
      have := hlast (steps.length - 1) hk (by omega)
      rw [hcur _ hk, (hone _ hk).1] at this
      omega
  · intro k hk
    exact ⟨hcur k hk, (hone k hk).1, (hone k hk).2 k (hcur k hk)⟩

/-! ## The ASCII preview -/

theorem ascii_char_spec : ∀ b : Byte,
    ascii_char b = (if 0x20 ≤ b.val ∧ b.val ≤ 0x7e ∧ b.val ≠ 0x28 ∧ b.val ≠ 0x29 then
      Char.ofNat b.val else '.') ∧
    ascii_char b ≠ '(' ∧ ascii_char b ≠ ')' ∧
    0x20 ≤ (ascii_char b).toNat ∧ (ascii_char b).toNat ≤ 0x7e := by
  decide

/-- C11: `put_asciidump` writes for a byte `b` the character `b` itself when
`0x20 ≤ b ≤ 0x7e` and `b` is neither `(` (0x28) nor `)` (0x29), so a space for the byte
0x20, and `.` for every other byte; the preview field, with its padding, holds no `(` and
no `)` and only characters from 0x20 to 0x7e. -/
theorem ascii_preview (b : Byte) (code : List Byte) :
    ascii_char b = (if 0x20 ≤ b.val ∧ b.val ≤ 0x7e ∧ b.val ≠ 0x28 ∧ b.val ≠ 0x29 then
      Char.ofNat b.val else '.') ∧
    ascii_char 0x20 = ' ' ∧
    put_asciidump code code.length = some (code.map ascii_char) ∧
    ∀ c ∈ code.map ascii_char ++ put_space (HEXDUMP_WIDTH - (code.map ascii_char).length),
      c ≠ '(' ∧ c ≠ ')' ∧ 0x20 ≤ c.toNat ∧ c.toNat ≤ 0x7e := by
  refine ⟨(ascii_char_spec b).1, by decide, ?_, ?_⟩
  · rw [put_asciidump_eq code code.length (le_refl _), List.take_length]
  · intro c hc
    rcases List.mem_append.mp hc with h | h
    · obtain ⟨a, _, rfl⟩ := List.mem_map.mp h
      exact (ascii_char_spec a).2
    · have : c = ' ' := List.eq_of_mem_replicate h
      subst this
      decide

/-! ## The address -/

theorem toDigits_fuel (k v : Nat) (h : v < 16 ^ (k + 1)) :
    Nat.toDigits 16 v = Nat.toDigitsCore 16 (k + 1) v [] :=
  toDigitsCore_fuel k v v [] h
    (Nat.lt_of_lt_of_le (Nat.lt_pow_self (by norm_num) v)
      (Nat.pow_le_pow_right (by norm_num) (Nat.le_succ v)))

/-- The value 65536 does not fit four hex digits. -/
theorem fmt_0x_overflow : fmt_0x 4 (65280 + 256) = "10000".toList := by
  show fmt_0x 4 65536 = _
  unfold fmt_0x
  rw [toDigits_fuel 4 65536 (by norm_num)]
  decide

/-- The last line of an image that repeats `n + 1` times a byte that is no literal push:
it is produced at cursor `n`, from that byte alone. -/
theorem replicate_last_step (b : Byte) (hfree : b ≠ 0x80 ∧ b ≠ 0xA0 ∧ b ≠ 0xC0 ∧ b ≠ 0xE0)
    (n : Nat) (hn : n + 1 < 2147483648) :
    ∃ steps, disassemble_loop (List.replicate (n + 1) b) (n + 1) 0 = some steps ∧
      steps.length = n + 1 ∧
      ∃ s, steps[n]? = some s ∧ s.cursor = n ∧ s.consumed = 1 ∧
        build_line n [b] 1 = some (s.line, 1) := by
  obtain ⟨steps, hs, hlen, hstep⟩ := disassemble_free (List.replicate (n + 1) b)
    (by rw [List.length_replicate]; exact hn) (n + 1)
    (by simp) (by
      intro c hc
      rw [List.eq_of_mem_replicate hc]
      exact hfree)
  have hk : n < steps.length := by rw [hlen]; simp
  obtain ⟨hc, hone, _, _, hb⟩ := hstep n hk
  refine ⟨steps, hs, by simpa using hlen, steps[n], List.getElem?_eq_getElem hk, hc, hone, ?_⟩
  rw [List.drop_replicate, List.length_replicate] at hb
  have e1 : n + 1 - n = 1 := by omega
  have e2 : ((n + 1 : Nat) : Int) - (n : Int) = 1 := by push_cast; omega
  rw [e1, e2] at hb
  exact hb

/-- C17: `get_immediate_size` is not zero exactly for the bytes whose mnemonic is `LIT`
(the test `(b & 0x9f) == 0x80` and the entry `opecode0[b >> 5]` read when `b & 0x1f` is 0
agree), and it is 2 exactly when the text written also has the modifier `2`. -/
theorem length_mnemonic_agreement (b : Byte) :
    (get_immediate_size b ≠ 0 ↔ select_mnemonic b = some "LIT") ∧
    ((b.val &&& 0x9f = 0x80) ↔
      (b.val &&& 0x1f = 0 ∧ opecode0.get? (b.val >>> 5) = some (some "LIT"))) ∧
    (get_immediate_size b = 2 ↔
      (select_mnemonic b = some "LIT" ∧ '2' ∈ put_modifiers (modifier_bits b))) ∧
    (get_immediate_size b = 2 ↔
      (select_mnemonic b = some "LIT" ∧ '2' ∈ (put_instruction b).getD [])) := by
  revert b
  decide

/-! ## Injectivity of the instruction text -/

theorem assemble_put_instruction : ∀ b : Byte,
    assemble ((put_instruction b).getD []) = some b := by
  decide

/-- C16: the text `put_instruction` writes is different for different bytes: the byte is
found again from the text, by `assemble`. -/
theorem rendering_injective :
    Function.Injective put_instruction ∧
    (∀ b : Byte, ∃ text, put_instruction b = some text ∧ assemble text = some b) := by
  refine ⟨?_, ?_⟩
  · intro a b hab
    have ha := assemble_put_instruction a
    rw [hab, assemble_put_instruction b] at ha
    exact (Option.some.inj ha).symm
  · intro b
    exact ⟨_, (put_instruction_some b).1, assemble_put_instruction b⟩

/-! ## The whole line -/

theorem lit_bytes : ∀ b : Byte, get_immediate_size b ≠ 0 →
    b = 0x80 ∨ b = 0xA0 ∨ b = 0xC0 ∨ b = 0xE0 := by
  decide

theorem header_line : "|".toList ++ fmt_0x 4 OFFSET = "|0100".toList := by
  decide

/-- C14, as the specification states it, fails in an image of 65281 bytes 0x01: the line
of index 65280 consumes one byte and shows the address `0000`, while 0x100 + 65280 is
`10000` in hexadecimal.  It also fails in an image of `2 ^ 31` bytes 0x01: the only body
line is a raw-mode line, for which `build_line` returns `INT_MIN`. -/
theorem free_address_wraps :
    (∃ steps, disassemble_loop (List.replicate 65281 (1 : Byte)) 65281 0 = some steps ∧
      steps.length = 65281 ∧
      ∃ s, steps[65280]? = some s ∧ s.consumed = 1 ∧
        s.line = "( 0000 01       .   )\tINC".toList ∧
        (s.line.drop 2).take 4 = "0000".toList ∧
        (s.line.drop 2).take 4 ≠ fmt_0x 4 (0x100 + 65280)) ∧
    disassemble_loop (List.replicate 2147483648 (1 : Byte)) 2147483648 0 =
      some [⟨0, -2147483648, "( 0100              )\t".toList⟩] := by
  refine ⟨?_, (loop_int_min 1 2147483647 rfl 2147483647).1⟩
  obtain ⟨steps, hs, hlen, s, hget, _, hone, hb⟩ := replicate_last_step 1 (by decide) 65280 (by decide)
  have e : build_line 65280 [(1 : Byte)] 1 =
      some ("( 0000 01       .   )\tINC".toList, 1) := by decide
  have hl : s.line = "( 0000 01       .   )\tINC".toList :=
    congrArg Prod.fst (Option.some.inj (hb.symm.trans e))
  have ho : fmt_0x 4 (0x100 + 65280) = "10000".toList := fmt_0x_overflow
  refine ⟨steps, hs, hlen, s, hget, hone, hl, ?_, ?_⟩
  · rw [hl]; decide
  · rw [hl, ho]; decide

/-- C14, amended: `disassemble_all` first emits the header `|0100`; for an image of
`n < 2 ^ 31` bytes none of which is 0x80, 0xA0, 0xC0 or 0xE0 it then emits exactly `n`
body lines, the `k`-th (from 0) consuming exactly the byte at offset `k`, in decode mode,
and showing the address `(0x100 + k) mod 0x10000`, which is `0x100 + k` when `k < 65280`. -/
theorem immediate_free_output (image : List Byte) (hsize : image.length < 2147483648)
    (fuel : Nat) (hf : image.length ≤ fuel)
    (hfree : ∀ b ∈ image, b ≠ 0x80 ∧ b ≠ 0xA0 ∧ b ≠ 0xC0 ∧ b ≠ 0xE0) :
    ∃ steps, disassemble_loop image fuel 0 = some steps ∧
      disassemble_all image fuel = some ("|0100".toList :: steps.map Step.line) ∧
      steps.length = image.length ∧
      ∀ (k : Nat) (hk : k < steps.length),
        steps[k].cursor = k ∧ steps[k].consumed = 1 ∧
        dump_flag (image.drop k) ((image.length : Int) - k) = some false ∧
        decode_line k (image.drop k) 1 = some steps[k].line ∧
        build_line k (image.drop k) ((image.length : Int) - k) = some (steps[k].line, 1) ∧
        (steps[k].line.drop 2).take 4 = fmt_0x 4 ((0x100 + k) % 65536) ∧
        (k < 65280 → (steps[k].line.drop 2).take 4 = fmt_0x 4 (0x100 + k)) := by
  obtain ⟨steps, hs, hlen, hstep⟩ := disassemble_free image hsize fuel hf hfree
  refine ⟨steps, hs, ?_, hlen, ?_⟩
  · unfold disassemble_all
    rw [hs, header_line]
    rfl
  · intro k hk
    obtain ⟨h1, h2, h3, h4, h5⟩ := hstep k hk
    obtain ⟨ha, _⟩ := address_field image k (by omega) _ _ h5
    rw [Nat.add_comm k 256] at ha
    refine ⟨h1, h2, h3, h4, h5, ha, ?_⟩
    intro hlt
    rw [ha, Nat.mod_eq_of_lt (by omega)]

/-- C14 at the image `[0x01, 0x02]`: the header and two body lines, with the addresses
`0100` and `0101`. -/
theorem immediate_free_output_witness :
    (image_of [0x01, 0x02]).length < 2147483648 ∧
    (image_of [0x01, 0x02]).length ≤ 2 ∧
    disassemble_all (image_of [0x01, 0x02]) 2 = some [
      "|0100".toList,
      "( 0100 01       .   )\tINC".toList,
      "( 0101 02       .   )\tPOP".toList] := by
  obtain ⟨steps, hs, hall, _⟩ :=
    immediate_free_output (image_of [0x01, 0x02]) (by decide) 2 (by decide) (by decide)
  have e : disassemble_loop (image_of [0x01, 0x02]) 2 0 = some [
      ⟨0, 1, "( 0100 01       .   )\tINC".toList⟩,
      ⟨1, 1, "( 0101 02       .   )\tPOP".toList⟩] := by decide
  have hl := Option.some.inj (hs.symm.trans e)
  subst hl
  exact ⟨by decide, by decide, hall⟩

/-- A run of the loop that ends within `fuel` iterations is the same with more. -/
theorem disassemble_loop_succ (image : List Byte) : ∀ (fuel : Nat) (i : Int)
    (steps : List Step), disassemble_loop image fuel i = some steps →
    disassemble_loop image (fuel + 1) i = some steps := by
  intro fuel
  induction fuel with
  | zero =>
    intro i steps hs
    by_cases hc : to_size_t i < to_size_t image.length
    · rw [disassemble_loop, if_pos hc] at hs
      exact absurd hs (by simp)
    · rw [disassemble_loop, if_neg hc] at hs
      rw [disassemble_loop, if_neg hc, hs]
  | succ fuel ih =>
    intro i steps hs
    by_cases hc : to_size_t i < to_size_t image.length
    · rw [disassemble_loop, if_pos hc] at hs
      rw [disassemble_loop, if_pos hc]
      by_cases hneg : i < 0
      · rw [if_pos hneg] at hs
        exact absurd hs (by simp)
      · rw [if_neg hneg] at hs ⊢
        cases hb : build_line i.toNat (image.drop i.toNat)
            (to_int ((to_size_t image.length : Int) - (to_size_t i : Int))) with
        | none => rw [hb] at hs; simp at hs
        | some p =>
          obtain ⟨line, n⟩ := p
          rw [hb] at hs
          simp only [Option.bind_eq_bind, Option.some_bind] at hs ⊢
          by_cases hov : i + n < INT_MIN ∨ INT_MAX < i + n
          · rw [if_pos hov] at hs
            exact absurd hs (by simp)
          · rw [if_neg hov] at hs ⊢
            cases hr : disassemble_loop image fuel (i + n) with
            | none => rw [hr] at hs; simp at hs
            | some rest =>
              rw [hr] at hs
              rw [ih _ _ hr]
              exact hs
    · rw [disassemble_loop, if_neg hc] at hs
      rw [disassemble_loop, if_neg hc, hs]

theorem disassemble_loop_mono (image : List Byte) (fuel more : Nat) (i : Int)
    (steps : List Step) (hs : disassemble_loop image fuel i = some steps) :
    disassemble_loop image (fuel + more) i = some steps := by
  induction more with
  | zero => exact hs
  | succ more ih => exact disassemble_loop_succ image (fuel + more) i steps ih

/-- C15, as the specification states it, fails in an image of `2 ^ 32` zero bytes: the
`int` parameter `remain` of the first call of `build_line` is 0, the call returns 0, not
a count between 1 and 3, the cursor does not advance, and no number of iterations ends
the loop. -/
theorem loop_never_ends :
    (¬ ∃ (fuel : Nat) (steps : List Step),
      disassemble_loop (List.replicate 4294967296 (0 : Byte)) fuel 0 = some steps) ∧
    to_int (((List.replicate 4294967296 (0 : Byte)).length : Int) - 0) = 0 ∧
    build_line 0 (List.replicate 4294967296 (0 : Byte)) 0 =
      some ("( 0100              )\t".toList, 0) := by
  refine ⟨?_, ?_, ?_⟩
  · rintro ⟨fuel, steps, hs⟩
    have hnone := loop_zero_remain 0 4294967295 rfl fuel
    rw [hnone] at hs
    exact absurd hs (by simp)
  · rw [List.length_replicate]
    decide
  · have hb := (build_line_nonpos 0 0 (List.replicate 4294967295 (0 : Byte)) 0 (le_refl _)).1
    rw [empty_comment] at hb
    exact hb

/-- C15, amended: for every image shorter than `2 ^ 31` bytes, with at least as many
iterations allowed as the image has bytes, the loop of `disassemble_all` ends, and it
does so within `length` iterations; at every call of
`build_line` the cursor is at least 0 and less than the length, the count returned is
between 1 and 3 and at most `length - cursor`, the next cursor is the cursor plus that
count, so larger, and never more than the length; after the last call it is the length. -/
theorem cursor_progress (image : List Byte) (hsize : image.length < 2147483648)
    (fuel : Nat) (hf : image.length ≤ fuel) :
    ∃ steps, disassemble_loop image fuel 0 = some steps ∧
      disassemble_loop image image.length 0 = some steps ∧
      steps.length ≤ image.length ∧
      (∀ (k : Nat) (hk : k < steps.length),
        0 ≤ steps[k].cursor ∧ steps[k].cursor < image.length ∧
        build_line steps[k].cursor.toNat (image.drop steps[k].cursor.toNat)
          ((image.length : Int) - steps[k].cursor) = some (steps[k].line, steps[k].consumed) ∧
        1 ≤ steps[k].consumed ∧ steps[k].consumed ≤ 3 ∧
        steps[k].consumed ≤ (image.length : Int) - steps[k].cursor ∧
        steps[k].cursor + steps[k].consumed ≤ image.length) ∧
      (∀ (k : Nat) (hk : k + 1 < steps.length),
        steps[k + 1].cursor = steps[k].cursor + steps[k].consumed ∧
        steps[k].cursor < steps[k + 1].cursor) ∧
      (∀ (k : Nat) (hk : k < steps.length), k + 1 = steps.length →
        steps[k].cursor + steps[k].consumed = image.length) ∧
      (steps = [] → image.length = 0) := by
  obtain ⟨steps, hs, hle, hstep, hnext, hlast, _, hnil⟩ :=
    disassemble_run image hsize image.length (le_refl _)
  have hfuel : disassemble_loop image fuel 0 = some steps := by
    have := disassemble_loop_mono image image.length (fuel - image.length) 0 steps hs
    rwa [Nat.add_sub_cancel' hf] at this
  refine ⟨steps, hfuel, hs, hle, ?_, ?_, hlast, ?_⟩
  · intro k hk
    obtain ⟨a, b, c, d, e, _, g⟩ := hstep k hk
    exact ⟨a, b, g, c, d, e, by omega⟩
  · intro k hk
    have := (hstep k (by omega)).2.2.1
    exact ⟨hnext k hk, by rw [hnext k hk]; omega⟩
  · intro he
    rw [hnil he]
    rfl

/-- C15 at the image `a0 12 34 20 ff 80`: four iterations for six bytes, at the cursors
0, 3, 4 and 5, and the cursor after the last one is 6. -/
theorem cursor_progress_witness :
    (image_of [0xa0, 0x12, 0x34, 0x20, 0xff, 0x80]).length < 2147483648 ∧
    (image_of [0xa0, 0x12, 0x34, 0x20, 0xff, 0x80]).length ≤ 6 ∧
    ∃ steps, disassemble_loop (image_of [0xa0, 0x12, 0x34, 0x20, 0xff, 0x80]) 6 0 =
        some steps ∧
      steps.length = 4 ∧ steps.map Step.cursor = [0, 3, 4, 5] ∧
      steps.map Step.consumed = [3, 1, 1, 1] := by
  obtain ⟨steps, hs, _⟩ :=
    cursor_progress (image_of [0xa0, 0x12, 0x34, 0x20, 0xff, 0x80]) (by decide) 6 (by decide)
  have e : disassemble_loop (image_of [0xa0, 0x12, 0x34, 0x20, 0xff, 0x80]) 6 0 = some [
      ⟨0, 3, "( 0100 a0 12 34 ..4 )\tLIT2   1234 ".toList⟩,
      ⟨3, 1, "( 0103 20           )\t20 ".toList⟩,
      ⟨4, 1, "( 0104 ff       .   )\tSFT2kr".toList⟩,
      ⟨5, 1, "( 0105 80       .   )\t80 ".toList⟩] := by decide
  have hl := Option.some.inj (hs.symm.trans e)
  subst hl
  exact ⟨by decide, by decide, _, hs, rfl, rfl, rfl⟩

/-- C19, as the specification states it, fails in an image of `2 ^ 31` bytes 0x02: the
`int` parameter `remain` of the first call of `build_line` is `INT_MIN`, so the line is a
raw-mode line although the byte at its cursor is no literal push, and the count returned
is `INT_MIN`, not 1 or 2. -/
theorem raw_mode_not_literal :
    disassemble_loop (List.replicate 2147483648 (2 : Byte)) 2147483648 0 =
      some [⟨0, -2147483648, "( 0100              )\t".toList⟩] ∧
    dump_flag (List.replicate 2147483648 (2 : Byte)) (to_int (2147483648 - 0)) = some true ∧
    (List.replicate 2147483648 (2 : Byte)).get? 0 = some 2 ∧
    get_immediate_size 2 = 0 := by
  obtain ⟨h1, h2⟩ := loop_int_min 2 2147483647 rfl 2147483647
  refine ⟨h1, h2, ?_, by decide⟩
  show (List.replicate (2147483647 + 1) (2 : Byte)).get? 0 = some 2
  rw [List.replicate_succ, List.get?_cons_zero]

/-- C19, amended: for every image shorter than `2 ^ 31` bytes, in the run of the loop of
`disassemble_all`, a step in raw mode is the last step, so there is at most one; the byte at its cursor is 0x80, 0xA0, 0xC0 or 0xE0 and it
consumes 1 or 2 bytes; every step before the last is in decode mode, and a step in decode
mode writes a decode-mode line. -/
theorem raw_mode_tail (image : List Byte) (hsize : image.length < 2147483648)
    (fuel : Nat) (hf : image.length ≤ fuel) :
    ∃ steps, disassemble_loop image fuel 0 = some steps ∧
      (∀ (k : Nat) (hk : k < steps.length),
        ∃ (c : Nat) (hc : c < image.length), steps[k].cursor = c ∧
          (dump_flag (image.drop c) ((image.length : Int) - c) = some true ∨
            dump_flag (image.drop c) ((image.length : Int) - c) = some false) ∧
          (dump_flag (image.drop c) ((image.length : Int) - c) = some true →
            k + 1 = steps.length ∧
            raw_line c (image.drop c) ((image.length : Int) - c) = some steps[k].line ∧
            (image[c] = 0x80 ∨ image[c] = 0xA0 ∨ image[c] = 0xC0 ∨ image[c] = 0xE0) ∧
            (steps[k].consumed = 1 ∨ steps[k].consumed = 2)) ∧
          (dump_flag (image.drop c) ((image.length : Int) - c) = some false →
            decode_line c (image.drop c) (get_immediate_size image[c] + 1) =
              some steps[k].line ∧
            steps[k].consumed = get_immediate_size image[c] + 1) ∧
          (k + 1 < steps.length →
            dump_flag (image.drop c) ((image.length : Int) - c) = some false)) ∧
      (∀ (j k : Nat) (hj : j < steps.length) (hk : k < steps.length),
        dump_flag (image.drop steps[j].cursor.toNat)
          ((image.length : Int) - steps[j].cursor) = some true →
        dump_flag (image.drop steps[k].cursor.toNat)
          ((image.length : Int) - steps[k].cursor) = some true → j = k) := by
  obtain ⟨steps, hs, _, hstep, hnext, _, _, _⟩ := disassemble_run image hsize fuel hf
  have key : ∀ (k : Nat) (hk : k < steps.length) (c : Nat), steps[k].cursor = c →
      dump_flag (image.drop c) ((image.length : Int) - c) = some true →
      k + 1 = steps.length := by
    intro k hk c hcur hdump
    obtain ⟨h0, h1, _, _, _, _, hb⟩ := hstep k hk
    obtain ⟨c', hc', ec, hmode⟩ := step_mode image steps[k] h0 h1 hb
    have hcc : c' = c := by omega
    subst hcc
    rcases hmode with ⟨_, _, _, hcons, _, _⟩ | ⟨_, hd, _, _⟩
    · by_contra hne
      have hk1 : k + 1 < steps.length := by omega
      have hn := hnext k hk1
      have hlt := (hstep (k + 1) hk1).2.1
      omega
    · rw [hd] at hdump
      exact absurd hdump (by decide)
  refine ⟨steps, hs, ?_, ?_⟩
  · intro k hk
    obtain ⟨h0, h1, _, _, _, _, hb⟩ := hstep k hk
    obtain ⟨c, hc, ec, hmode⟩ := step_mode image steps[k] h0 h1 hb
    refine ⟨c, hc, ec, ?_, ?_, ?_, ?_⟩
    · rcases hmode with ⟨_, hd, _⟩ | ⟨_, hd, _⟩
      · exact Or.inl hd
      · exact Or.inr hd
    · intro hdump
      rcases hmode with ⟨_, _, hraw, _, h12, hne⟩ | ⟨_, hd, _, _⟩
      · exact ⟨key k hk c ec hdump, hraw, lit_bytes _ hne, h12⟩
      · rw [hd] at hdump
        exact absurd hdump (by decide)
    · intro hdump
      rcases hmode with ⟨_, hd, _⟩ | ⟨_, _, hdec, hcons⟩
      · rw [hd] at hdump
        exact absurd hdump (by decide)
      · exact ⟨hdec, hcons⟩
    · intro hk1
      rcases hmode with ⟨_, hd, _⟩ | ⟨_, hd, _, _⟩
      · have := key k hk c ec hd
        omega
      · exact hd
  · intro j k hj hk dj dk
    have ej : steps[j].cursor = (steps[j].cursor.toNat : Int) :=
      (Int.toNat_of_nonneg (hstep j hj).1).symm
    have ek : steps[k].cursor = (steps[k].cursor.toNat : Int) :=
      (Int.toNat_of_nonneg (hstep k hk).1).symm
    rw [ej] at dj
    rw [ek] at dk
    simp only [Int.toNat_ofNat] at dj dk
    have := key j hj _ ej dj
    have := key k hk _ ek dk
    omega

/-- C19 at the image `a0 12 34 20 ff 80`: the first three steps are in decode mode, the
last one, at the byte 0x80, is in raw mode and consumes 1 byte. -/
theorem raw_mode_tail_witness :
    (image_of [0xa0, 0x12, 0x34, 0x20, 0xff, 0x80]).length < 2147483648 ∧
    (image_of [0xa0, 0x12, 0x34, 0x20, 0xff, 0x80]).length ≤ 6 ∧
    ∃ steps, disassemble_loop (image_of [0xa0, 0x12, 0x34, 0x20, 0xff, 0x80]) 6 0 =
        some steps ∧
      steps.map (fun s => dump_flag ((image_of [0xa0, 0x12, 0x34, 0x20, 0xff, 0x80]).drop
        s.cursor.toNat) (6 - s.cursor)) = [some false, some false, some false, some true] ∧
      steps.map Step.consumed = [3, 1, 1, 1] := by
  obtain ⟨steps, hs, _⟩ :=
    raw_mode_tail (image_of [0xa0, 0x12, 0x34, 0x20, 0xff, 0x80]) (by decide) 6 (by decide)
  have e : disassemble_loop (image_of [0xa0, 0x12, 0x34, 0x20, 0xff, 0x80]) 6 0 = some [
      ⟨0, 3, "( 0100 a0 12 34 ..4 )\tLIT2   1234 ".toList⟩,
      ⟨3, 1, "( 0103 20           )\t20 ".toList⟩,
      ⟨4, 1, "( 0104 ff       .   )\tSFT2kr".toList⟩,
      ⟨5, 1, "( 0105 80       .   )\t80 ".toList⟩] := by decide
  have hl := Option.some.inj (hs.symm.trans e)
  subst hl
  exact ⟨by decide, by decide, _, hs, by decide, rfl⟩

end Uxndump
